import Mathlib

/-!
# Flanders API: call-leg resolution, de-duplication and search options

A shallow embedding of `src/api/api.go`:

* `callLegIDs` and `packetsByCallID` (the recursive call-leg resolver),
* the sort-then-drop-repeats walk of the `GET /call/:id` and
  `GET /call/:id/dump` handlers,
* the `limit` handling of the `GET /search` handler.

The packet store (`db.Db.Find`), `UniqueSlice`, `sanatizedForm`, the date
parser, `sort.Sort` and the ordering `DbResult.Less` are not part of `api.go`;
they are taken as parameters, or modelled from the specification where a
concrete instance is needed.
-/

namespace Flanders

/-! ## Data model -/

/-- Modelled from the spec: the record type `db.DbObject` is declared in package
`db`, outside `api.go`.  The fields are the ones of the specification's
PacketRecord; the Go names are kept for the fields `api.go` reads. -/
structure PacketRecord where
  CallId : String
  CallIdAleg : String
  SourceIp : String
  SourcePort : Nat
  DestinationIp : String
  DestinationPort : Nat
  Datetime : Int
  MicroSeconds : Int
  Msg : String
deriving DecidableEq, Repr

/-- What one run of the resolver produced.  `returned results err` is Go's
result pair `(db.DbResult, error)`, a `nil` slice being the empty list;
`outOfFuel` says that the recursion went deeper than the depth bound. -/
inductive Outcome (ε : Type) where
  | outOfFuel : Outcome ε
  | returned (results : List PacketRecord) (err : Option ε) : Outcome ε
deriving DecidableEq, Repr

/-- A packet store with internal state `σ`: `find s callID` answers the query
that `packetsByCallID` builds (`callid = callID` or `callidaleg = callID`,
sorted by `datetime`, `microseconds`) with Go's pair `(results, err)` and the
next state of the store. -/
abbrev Store (σ ε : Type) := σ → String → (List PacketRecord × Option ε) × σ

/-! ## The resolver -/

/-- The loop of `callLegIDs` before `UniqueSlice` is applied. -/
def collectLegIDs (excludeCallID trunkCallID : String) (results : List PacketRecord) :
    List String :=
  results.foldl
    (fun callIds msg =>
      if excludeCallID ≠ "" ∧ msg.CallIdAleg = excludeCallID then callIds
      else if msg.CallId ≠ trunkCallID then callIds ++ [msg.CallId]
      else callIds)
    []

/-- Whether the loop of `callLegIDs` collects the identifier of `msg`. -/
def collects (excludeCallID trunkCallID : String) (msg : PacketRecord) : Prop :=
  ¬ (excludeCallID ≠ "" ∧ msg.CallIdAleg = excludeCallID) ∧ msg.CallId ≠ trunkCallID

instance collects.decidable (e t : String) (msg : PacketRecord) : Decidable (collects e t msg) :=
  inferInstanceAs (Decidable (_ ∧ _))

/-- Embedding of `callLegIDs`; `uniq` stands for `UniqueSlice`, which is defined
in another file of package `api`. -/
def callLegIDs (uniq : List String → List String) (excludeCallID trunkCallID : String)
    (results : List PacketRecord) : List String :=
  uniq (collectLegIDs excludeCallID trunkCallID results)

/-- The `for _, newCallID := range altCallIds` loop of `packetsByCallID`;
`recurse newCallID callID` is the recursive call `packetsByCallID(newCallID, callID)`. -/
def legLoop {σ ε : Type} (recurse : String → String → σ → Outcome ε × σ) (callID : String) :
    List String → List PacketRecord → σ → Outcome ε × σ
  | [], results, s => (Outcome.returned results none, s)
  | newCallID :: rest, results, s =>
    match recurse newCallID callID s with
    | (Outcome.outOfFuel, s1) => (Outcome.outOfFuel, s1)
    | (Outcome.returned _ (some err), s1) => (Outcome.returned [] (some err), s1)
    | (Outcome.returned p none, s1) => legLoop recurse callID rest (results ++ p) s1

/-- Embedding of `packetsByCallID`.  The first argument after the store and
`UniqueSlice` bounds the recursion depth: a call that would need a frame
beyond the bound answers `outOfFuel` without querying the store. -/
def packetsByCallID {σ ε : Type} (find : Store σ ε) (uniq : List String → List String) :
    Nat → String → String → σ → Outcome ε × σ
  | 0, _, _, s => (Outcome.outOfFuel, s)
  | fuel + 1, callID, excludeCallID, s =>
    match find s callID with
    | ((_, some err), s1) => (Outcome.returned [] (some err), s1)
    | ((results, none), s1) =>
      legLoop (packetsByCallID find uniq fuel) callID
        (callLegIDs uniq excludeCallID callID results) results s1

/-- Modelled from the spec: `UniqueSlice` is not part of `api.go`; the
specification only asks that it de-duplicates the collected identifiers.
This instance keeps the first occurrence of each identifier. -/
def UniqueSlice : List String → List String
  | [] => []
  | x :: xs => x :: (UniqueSlice xs).filter (fun y => y ≠ x)

/-- What the resolver needs of `UniqueSlice`: no identifier twice, and the same
identifiers as the input. -/
def IsUniqueSlice (uniq : List String → List String) : Prop :=
  ∀ l, (uniq l).Nodup ∧ ∀ x, x ∈ uniq l ↔ x ∈ l

/-! ## Stores -/

/-- The query of `packetsByCallID`: `callid = callID` or `callidaleg = callID`. -/
def matchesCall (callID : String) (r : PacketRecord) : Bool :=
  r.CallId = callID || r.CallIdAleg = callID

/-- A store answers faithfully for the record set `db` when every query
succeeds and returns exactly the records of `db` matching the query. -/
def Faithful {σ ε : Type} (db : List PacketRecord) (find : Store σ ε) : Prop :=
  ∀ s callID, (find s callID).1.2 = none ∧
    ∀ r, r ∈ (find s callID).1.1 ↔ (r ∈ db ∧ (r.CallId = callID ∨ r.CallIdAleg = callID))

/-- The stateless, error-free store holding the records `db`. -/
def storeOf (ε : Type) (db : List PacketRecord) : Store Unit ε :=
  fun s callID => ((db.filter (matchesCall callID), none), s)

/-- One recorded query: the identifier asked for and the store's answer. -/
structure QueryRecord (ε : Type) where
  callID : String
  results : List PacketRecord
  err : Option ε
deriving DecidableEq, Repr

/-- The store `find` with a journal of the queries it answered, oldest first. -/
def journaled {σ ε : Type} (find : Store σ ε) : Store (σ × List (QueryRecord ε)) ε :=
  fun s callID =>
    ((find s.1 callID).1, ((find s.1 callID).2, s.2 ++ [⟨callID, (find s.1 callID).1.1, (find s.1 callID).1.2⟩]))

/-- The identifiers queried, in order. -/
def queriedIDs {ε : Type} (journal : List (QueryRecord ε)) : List String :=
  journal.map QueryRecord.callID

/-- The journal entries added by a run agree with its outcome: an entry with an
error means that the run returned that error and no records. -/
def ErrorsSurface {ε : Type} (added : List (QueryRecord ε)) (out : Outcome ε) : Prop :=
  ∀ q, q ∈ added → ∀ e, q.err = some e → out = Outcome.returned [] (some e)

/-! ## The leg/A-leg relation -/

/-- Leg `c` is a child of leg `p` in `db`: some record of `c` names `p` as its A-leg. -/
def IsChildLeg (db : List PacketRecord) (p c : String) : Prop :=
  ∃ r, r ∈ db ∧ r.CallIdAleg = p ∧ r.CallId = c

/-- Leg `x` is reachable from `seed` by following the leg/A-leg relation. -/
def Reaches (db : List PacketRecord) (seed x : String) : Prop :=
  Relation.ReflTransGen (IsChildLeg db) seed x

/-- No leg is its own descendant. -/
def Acyclic (db : List PacketRecord) : Prop :=
  ∀ x, ¬ Relation.TransGen (IsChildLeg db) x x

/-- Every leg has at most one parent. -/
def UniqueParent (db : List PacketRecord) : Prop :=
  ∀ p q c, IsChildLeg db p c → IsChildLeg db q c → p = q

/-- The leg/A-leg relation of `db` is a forest of call-leg trees. -/
def LegTree (db : List PacketRecord) : Prop :=
  Acyclic db ∧ UniqueParent db

/-- Every descending path of legs below `seed` has at most `d` edges. -/
def DepthLE (db : List PacketRecord) (seed : String) (d : Nat) : Prop :=
  ∀ path, List.Chain (IsChildLeg db) seed path → path.length ≤ d

/-- The shape of a finished run from `seed` on a store faithful to `db`: it
returns, without error, exactly the records of the legs reachable from `seed`,
and the identifiers it queried are exactly those legs, each once in a forest. -/
def TreeRun {σ ε : Type} (db : List PacketRecord) (seed : String)
    (st : σ × List (QueryRecord ε)) (out : Outcome ε × (σ × List (QueryRecord ε))) : Prop :=
  ∃ rs s1 added, out = (Outcome.returned rs none, (s1, st.2 ++ added)) ∧
    (∀ r, r ∈ rs ↔ (r ∈ db ∧ Reaches db seed r.CallId)) ∧
    (∀ x, x ∈ queriedIDs added ↔ Reaches db seed x) ∧
    (UniqueParent db → (queriedIDs added).Nodup)

/-- The sequence `a, b, a, b, ...` of length `n`. -/
def alternating : Nat → String → String → List String
  | 0, _, _ => []
  | n + 1, a, b => a :: alternating n b a

/-! ## Sorting and de-duplication (`GET /call/:id`, `GET /call/:id/dump`) -/

/-- The walk of both handlers after `sort.Sort`:
`for i, val := range dbResults { if i == 0 || val != dbResults[i-1] { results = append(results, val) } }`. -/
def dedupWalk (dbResults : List PacketRecord) : List PacketRecord :=
  dbResults.enum.foldl
    (fun results iv =>
      if iv.1 = 0 ∨ some iv.2 ≠ dbResults[iv.1 - 1]? then results ++ [iv.2] else results)
    []

/-- The walk as the specification words it: a record is kept only if it differs
from the immediately preceding kept record. -/
def dedupKept (records : List PacketRecord) : List PacketRecord :=
  records.foldl
    (fun kept val => if kept.getLast? = some val then kept else kept ++ [val])
    []

/-- The walk as a recursion over the records still to visit, `prev` being the
record visited last (`none` before the first). -/
def dedupFrom : Option PacketRecord → List PacketRecord → List PacketRecord
  | _, [] => []
  | prev, val :: rest =>
    if prev = some val then dedupFrom (some val) rest else val :: dedupFrom (some val) rest

/-- Modelled from the spec: the sort key that `DbResult.Less` compares.
`DbResult.Less` is defined in package `db`, outside `api.go`.  Specification 4.2:
`dateTime` ascending, then `microseconds` ascending, remaining ties broken field
by field over the rest of the record, where "sort keys include every field that
participates in equality except the payload and port fields". -/
def sortKey (r : PacketRecord) : Int ×ₗ Int ×ₗ String ×ₗ String ×ₗ String ×ₗ String :=
  toLex (r.Datetime, toLex (r.MicroSeconds, toLex (r.CallId, toLex (r.CallIdAleg,
    toLex (r.SourceIp, r.DestinationIp)))))

/-- Modelled from the spec: the sort key in the wording of specification 8,
"sorted by (dateTime, microseconds) ascending". -/
def timeKey (r : PacketRecord) : Int ×ₗ Int :=
  toLex (r.Datetime, r.MicroSeconds)

/-- The contract of Go's `sort.Sort` for a `Less` that compares `key`: the result
is a rearrangement of the input in ascending order.  Nothing is promised about
the order of records with equal keys (`sort.Sort` is not stable). -/
def IsSort {κ : Type} [LinearOrder κ] (key : PacketRecord → κ)
    (sortFn : List PacketRecord → List PacketRecord) : Prop :=
  ∀ l, (sortFn l).Perm l ∧ List.Sorted (fun a b => key a ≤ key b) (sortFn l)

/-- A sort that reaches the records through `Less` only cannot tell records with
equal keys apart: replacing records by records with the same keys replaces them
in the result in the same places. -/
def SeesOnlyKeys {κ : Type} [LinearOrder κ] (key : PacketRecord → κ)
    (sortFn : List PacketRecord → List PacketRecord) : Prop :=
  ∀ f : PacketRecord → PacketRecord, (∀ a, key (f a) = key a) →
    ∀ l, sortFn (l.map f) = (sortFn l).map f

/-- No two different records of `xs` have the same sort key. -/
def TieFree {κ : Type} (key : PacketRecord → κ) (xs : List PacketRecord) : Prop :=
  ∀ a, a ∈ xs → ∀ b, b ∈ xs → key a = key b → a = b

/-- The `Normalize` step of `GET /call/:id` and `GET /call/:id/dump`:
`sort.Sort(dbResults)` followed by the walk; `sortFn` stands for `sort.Sort`
with the `Less` of `db.DbResult`. -/
def Normalize (sortFn : List PacketRecord → List PacketRecord)
    (dbResults : List PacketRecord) : List PacketRecord :=
  dedupWalk (sortFn dbResults)

/-- A sort meeting the contract that keeps records with equal keys in their
input order (insertion sort). -/
def stableSort {κ : Type} [LinearOrder κ] (key : PacketRecord → κ)
    (l : List PacketRecord) : List PacketRecord :=
  List.insertionSort (fun a b => key a ≤ key b) l

/-- A sort meeting the contract that puts records with equal keys in the reverse
of their input order. -/
def reversingSort {κ : Type} [LinearOrder κ] (key : PacketRecord → κ)
    (l : List PacketRecord) : List PacketRecord :=
  (List.insertionSort (fun a b => key b ≤ key a) l).reverse

/-! ## Search options (`GET /search`) -/

/-- Go's `url.Values`, a map from parameter name to its values. -/
abbrev Values := List (String × List String)

/-- Indexing `form[key]`: the values stored under `key`, `nil` when absent. -/
def Values.index (form : Values) (key : String) : List String :=
  match form.find? (fun kv => kv.1 = key) with
  | some kv => kv.2
  | none => []

/-- Go's `url.Values.Get`: the first value stored under `key`, `""` when there is none. -/
def Values.Get (form : Values) (key : String) : String :=
  (form.index key).headD ""

/-- The value of a decimal digit, `none` for any other character. -/
def digitValue (c : Char) : Option Nat :=
  if '0' ≤ c ∧ c ≤ '9' then some (c.toNat - '0'.toNat) else none

/-- The digit loop of Go's `strconv` integer parsing, base 10. -/
def parseDigits : Nat → List Char → Option Nat
  | n, [] => some n
  | n, c :: cs =>
    match digitValue c with
    | none => none
    | some d => parseDigits (n * 10 + d) cs

/-- Go's `strconv.Atoi` for a 64-bit `int`: an optional sign, then one or more
decimal digits, with a range error outside `[-2^63, 2^63 - 1]`.  `none` stands
for a non-nil `err`. -/
def Atoi (s : String) : Option Int :=
  match s.toList with
  | [] => none
  | c :: cs =>
    let digits := if c = '-' ∨ c = '+' then cs else c :: cs
    if digits = [] then none
    else
      match parseDigits 0 digits with
      | none => none
      | some n =>
        let v : Int := if c = '-' then -(n : Int) else (n : Int)
        if -(2 : Int) ^ 63 ≤ v ∧ v ≤ (2 : Int) ^ 63 - 1 then some v else none

/-- The fields of `db.Filter` that the search handler writes (`db.NewFilter()`
starts with empty maps). -/
structure Filter where
  StartDate : String := ""
  EndDate : String := ""
  Like : List (String × String) := []
  Equals : List (String × String) := []
  Or : List (String × String) := []
deriving DecidableEq, Repr

/-- The fields of `db.Options` that the search handler writes (`SortOrder` is Go's `Sort`). -/
structure Options where
  Limit : Int := 0
  SortOrder : List String := []
  UniqueCallID : Bool := false
deriving DecidableEq, Repr

/-- Go's map assignment `m[key] = value`. -/
def setKey (m : List (String × String)) (key value : String) : List (String × String) :=
  m.filter (fun kv => kv.1 ≠ key) ++ [(key, value)]

/-- The `limit` branch of the search handler (lines 81-90). -/
def limitOption (limit : String) : Int :=
  if limit = "" then 50
  else
    match Atoi limit with
    | none => 50
    | some limitUint64 => limitUint64

/-- The filter and options that the `GET /search` handler builds before it
queries the store.  `sanatizedForm` and the date parser
(`time.Parse(requestDateFormat, ·)` then `Format(time.RFC3339)`) live outside
`api.go` and are parameters; an `error` result is the handler's early return
after a date that does not parse. -/
def buildFilter (sanatizedForm : Values → Values) (parseDate : String → Except String String)
    (rForm : Values) : Except String (Filter × Options) :=
  let form := sanatizedForm rForm
  let startDate := form.Get "startdate"
  let endDate := form.Get "enddate"
  let limit := form.Get "limit"
  let touser := form.Get "touser"
  let fromuser := form.Get "fromuser"
  let sourceip := form.Get "sourceip"
  let destip := form.Get "destip"
  let filter : Filter := {}
  match (if startDate ≠ "" then (parseDate startDate).map (fun d => { filter with StartDate := d })
         else Except.ok filter) with
  | Except.error err => Except.error err
  | Except.ok filter =>
    match (if endDate ≠ "" then (parseDate endDate).map (fun d => { filter with EndDate := d })
           else Except.ok filter) with
    | Except.error err => Except.error err
    | Except.ok filter =>
      let filter := if touser ≠ "" then { filter with Like := setKey filter.Like "touser" touser } else filter
      let filter := if fromuser ≠ "" then { filter with Like := setKey filter.Like "fromuser" fromuser } else filter
      let filter := if sourceip ≠ "" then { filter with Equals := setKey filter.Equals "sourceip" sourceip } else filter
      let filter := if destip ≠ "" then { filter with Equals := setKey filter.Equals "destinationip" destip } else filter
      let order := form.index "orderby"
      let options : Options :=
        { Limit := limitOption limit
          SortOrder := if order.length = 0 then [] ++ ["-datetime"] else order
          UniqueCallID := true }
      Except.ok (filter, options)

/-! ## Example stores -/

/-- A record with the given call identifier and A-leg, all other fields blank. -/
def legRecord (callId callIdAleg : String) : PacketRecord :=
  ⟨callId, callIdAleg, "", 0, "", 0, 0, 0, ""⟩

/-- The store of the specification's scenario: one packet of call `A`, one packet of
leg `B` spawned from `A`. -/
def scenarioDb : List PacketRecord := [legRecord "A" "", legRecord "B" "A"]

/-- The scenario store, except that the query for leg `B` fails. -/
def failingStore : Store Unit String :=
  fun s callID =>
    if callID = "B" then (([], some "store unavailable"), s)
    else ((scenarioDb.filter (matchesCall callID), none), s)

/-- A call with three further legs: `B` and `D` spawned from `A`, `C` spawned from `B`. -/
def treeDb : List PacketRecord :=
  [legRecord "A" "", legRecord "B" "A", legRecord "C" "B", legRecord "D" "A"]

/-- The generation of a leg of `treeDb`. -/
def treeRank (callID : String) : Nat :=
  if callID = "" then 0 else if callID = "A" then 1 else if callID = "C" then 3 else 2

/-- An `INVITE` packet of call `A`. -/
def inviteRecord : PacketRecord :=
  ⟨"A", "", "10.0.0.1", 5060, "10.0.0.2", 5060, 0, 0, "INVITE"⟩

/-- A packet of the same call, endpoints and instant as `inviteRecord` with another payload. -/
def ackRecord : PacketRecord :=
  ⟨"A", "", "10.0.0.1", 5060, "10.0.0.2", 5060, 0, 0, "ACK"⟩

/-- Two legs naming each other as A-leg. -/
def cycleDb : List PacketRecord := [legRecord "A" "B", legRecord "B" "A"]

/-! # Theorems -/

/-! ## `callLegIDs` -/

theorem collectLegIDs_foldl (e t : String) (rs : List PacketRecord) (acc : List String) :
    rs.foldl
      (fun callIds msg =>
        if e ≠ "" ∧ msg.CallIdAleg = e then callIds
        else if msg.CallId ≠ t then callIds ++ [msg.CallId]
        else callIds) acc
      = acc ++ (rs.filter (fun msg => decide (collects e t msg))).map PacketRecord.CallId := by
  induction rs generalizing acc with
  | nil => simp
  | cons r rs ih =>
    rw [List.foldl_cons, ih]
    by_cases h1 : e ≠ "" ∧ r.CallIdAleg = e
    · have hc : ¬ collects e t r := fun h => h.1 h1
      simp [h1, hc]
    · by_cases h2 : r.CallId ≠ t
      · have hc : collects e t r := ⟨h1, h2⟩
        simp only [if_neg h1, if_pos h2]
        simp [hc]
      · have hc : ¬ collects e t r := fun h => h2 h.2
        simp only [if_neg h1, if_neg h2]
        simp [hc]

theorem collectLegIDs_eq (e t : String) (rs : List PacketRecord) :
    collectLegIDs e t rs
      = (rs.filter (fun msg => decide (collects e t msg))).map PacketRecord.CallId := by
  unfold collectLegIDs
  rw [collectLegIDs_foldl]
  simp

theorem mem_collectLegIDs (e t c : String) (rs : List PacketRecord) :
    c ∈ collectLegIDs e t rs ↔ ∃ r, r ∈ rs ∧ collects e t r ∧ r.CallId = c := by
  rw [collectLegIDs_eq]
  simp [List.mem_map, List.mem_filter, and_assoc]

theorem mem_callLegIDs {uniq : List String → List String} (hu : IsUniqueSlice uniq)
    (e t c : String) (rs : List PacketRecord) :
    c ∈ callLegIDs uniq e t rs ↔ ∃ r, r ∈ rs ∧ collects e t r ∧ r.CallId = c := by
  unfold callLegIDs
  rw [(hu _).2, mem_collectLegIDs]

/-- With an exclusion token other than the trunk, and records that all belong to
the trunk query, the loop collects the same list as without a token. -/
theorem collectLegIDs_guard (exclude seed : String) (rs : List PacketRecord)
    (hne : exclude = "" ∨ exclude ≠ seed)
    (hrs : ∀ r, r ∈ rs → r.CallId = seed ∨ r.CallIdAleg = seed) :
    collectLegIDs exclude seed rs = collectLegIDs "" seed rs := by
  rw [collectLegIDs_eq, collectLegIDs_eq]
  congr 1
  apply List.filter_congr
  intro r hr
  rcases hne with h0 | hne
  · subst h0; rfl
  · simp only [decide_eq_decide, collects]
    constructor
    · intro h; exact ⟨fun h' => h'.1 rfl, h.2⟩
    · intro h
      refine ⟨fun h' => ?_, h.2⟩
      rcases hrs r hr with h1 | h1
      · exact h.2 h1
      · exact hne (h'.2.symm.trans h1)

theorem uniqueSlice_mem (l : List String) (x : String) : x ∈ UniqueSlice l ↔ x ∈ l := by
  induction l with
  | nil => simp [UniqueSlice]
  | cons a l ih =>
    simp only [UniqueSlice, List.mem_cons, List.mem_filter, ih]
    by_cases h : x = a <;> simp [h]

theorem uniqueSlice_nodup (l : List String) : (UniqueSlice l).Nodup := by
  induction l with
  | nil => simp [UniqueSlice]
  | cons a l ih =>
    simp only [UniqueSlice, List.nodup_cons, List.mem_filter]
    exact ⟨fun h => by simpa using h.2, ih.filter _⟩

theorem isUniqueSlice_uniqueSlice : IsUniqueSlice UniqueSlice :=
  fun l => ⟨uniqueSlice_nodup l, uniqueSlice_mem l⟩

theorem faithful_storeOf (ε : Type) (db : List PacketRecord) : Faithful db (storeOf ε db) := by
  intro s callID
  refine ⟨rfl, fun r => ?_⟩
  simp [storeOf, matchesCall, List.mem_filter]

/-! ## The exclusion token -/

/-- C10: for an exclusion token other than the trunk and records that all carry
the trunk as call identifier or as A-leg (what a faithful `Find` returns),
`callLegIDs` returns the same identifiers as without a token, whatever
`UniqueSlice` does; every identifier the loop collects differs from the trunk,
so the recursive call `packetsByCallID(child, trunk)` is again in this situation. -/
theorem callLegIDs_exclusion_redundant (uniq : List String → List String)
    (exclude seed : String) (rs : List PacketRecord) (hne : exclude ≠ seed)
    (hrs : ∀ r, r ∈ rs → r.CallId = seed ∨ r.CallIdAleg = seed) :
    callLegIDs uniq exclude seed rs = callLegIDs uniq "" seed rs ∧
      collectLegIDs exclude seed rs = collectLegIDs "" seed rs ∧
      ∀ child, child ∈ collectLegIDs exclude seed rs → seed ≠ child := by
  have hg := collectLegIDs_guard exclude seed rs (Or.inr hne) hrs
  refine ⟨?_, hg, fun child hc => ?_⟩
  · unfold callLegIDs
    rw [hg]
  · obtain ⟨r, _, hcol, hrc⟩ := (mem_collectLegIDs exclude seed child rs).1 hc
    intro h
    exact hcol.2 (hrc.trans h.symm)

theorem callLegIDs_exclusion_redundant_witness :
    callLegIDs UniqueSlice "A" "B" [legRecord "B" "A", legRecord "C" "B", legRecord "D" "B"]
        = callLegIDs UniqueSlice "" "B" [legRecord "B" "A", legRecord "C" "B", legRecord "D" "B"] ∧
      collectLegIDs "A" "B" [legRecord "B" "A", legRecord "C" "B", legRecord "D" "B"]
        = collectLegIDs "" "B" [legRecord "B" "A", legRecord "C" "B", legRecord "D" "B"] ∧
      ∀ child,
        child ∈ collectLegIDs "A" "B"
          [legRecord "B" "A", legRecord "C" "B", legRecord "D" "B"] → "B" ≠ child :=
  callLegIDs_exclusion_redundant UniqueSlice "A" "B"
    [legRecord "B" "A", legRecord "C" "B", legRecord "D" "B"] (by decide) (by decide)

/-- C6, as stated, fails: in the store where `A` and `B` name each other as A-leg,
the call `packetsByCallID("B", "A")` gets both records from a faithful `Find("B")`,
and `callLegIDs("A", "B", ·)` returns the parent `A`; the run from seed `A`
queries `A`, `B` and `A` again. -/
theorem callLegIDs_parent_counterexample :
    "A" ≠ "" ∧
      "A" ∈ callLegIDs UniqueSlice "A" "B" (storeOf Unit cycleDb () "B").1.1 ∧
      queriedIDs (packetsByCallID (journaled (storeOf Unit cycleDb)) UniqueSlice 3 "A" ""
        ((), [])).2.2 = ["A", "B", "A"] := by
  decide

/-- C6, amended: for a non-empty parent, `callLegIDs(parent, child, results)`
contains the parent exactly when the parent is not the child and some record of
`results` has the parent as call identifier and another A-leg than the parent. -/
theorem callLegIDs_parent_iff (uniq : List String → List String) (hu : IsUniqueSlice uniq)
    (parent child : String) (results : List PacketRecord) (hp : parent ≠ "") :
    parent ∈ callLegIDs uniq parent child results ↔
      (parent ≠ child ∧ ∃ r, r ∈ results ∧ r.CallId = parent ∧ r.CallIdAleg ≠ parent) := by
  rw [mem_callLegIDs hu]
  constructor
  · rintro ⟨r, hr, hcol, hrc⟩
    refine ⟨fun h => hcol.2 (hrc.trans h), r, hr, hrc, fun h => hcol.1 ⟨hp, h⟩⟩
  · rintro ⟨hpc, r, hr, hrc, hra⟩
    exact ⟨r, hr, ⟨fun h => hra h.2, fun h => hpc (hrc.symm.trans h)⟩, hrc⟩

theorem callLegIDs_parent_iff_witness :
    ("A" ∈ callLegIDs UniqueSlice "A" "B" (storeOf Unit scenarioDb () "B").1.1 ↔
      ("A" ≠ "B" ∧ ∃ r, r ∈ (storeOf Unit scenarioDb () "B").1.1 ∧
        r.CallId = "A" ∧ r.CallIdAleg ≠ "A")) ∧
      callLegIDs UniqueSlice "A" "B" (storeOf Unit scenarioDb () "B").1.1 = [] ∧
      (packetsByCallID (storeOf Unit scenarioDb) UniqueSlice 2 "A" "" ()).1
        = Outcome.returned [legRecord "A" "", legRecord "B" "A", legRecord "B" "A"] none :=
  ⟨callLegIDs_parent_iff UniqueSlice isUniqueSlice_uniqueSlice "A" "B"
      (storeOf Unit scenarioDb () "B").1.1 (by decide), by decide, by decide⟩

/-! ## Store errors -/

theorem legLoop_errorsSurface {σ ε : Type}
    (recurse : String → String → σ × List (QueryRecord ε) → Outcome ε × (σ × List (QueryRecord ε)))
    (hrec : ∀ c x st, ∃ added, (recurse c x st).2.2 = st.2 ++ added ∧
      ErrorsSurface added (recurse c x st).1)
    (callID : String) (cs : List String) :
    ∀ (acc : List PacketRecord) (st : σ × List (QueryRecord ε)),
      ∃ added, (legLoop recurse callID cs acc st).2.2 = st.2 ++ added ∧
        ErrorsSurface added (legLoop recurse callID cs acc st).1 := by
  induction cs with
  | nil =>
    intro acc st
    exact ⟨[], by simp [legLoop], fun q hq => by simp at hq⟩
  | cons c cs ih =>
    intro acc st
    obtain ⟨added, hj, hI⟩ := hrec c callID st
    rw [legLoop]
    rcases hr : recurse c callID st with ⟨out, st1⟩
    rw [hr] at hj hI
    simp only at hj hI
    cases out with
    | outOfFuel => exact ⟨added, hj, hI⟩
    | returned p err =>
      cases err with
      | some e =>
        refine ⟨added, hj, fun q hq e' he' => ?_⟩
        have := hI q hq e' he'
        simp only [Outcome.returned.injEq] at this
        simp [this.2]
      | none =>
        obtain ⟨added2, hj2, hI2⟩ := ih (acc ++ p) st1
        refine ⟨added ++ added2, ?_, fun q hq e' he' => ?_⟩
        · simp only [hj2, hj, List.append_assoc]
        · rcases List.mem_append.1 hq with h | h
          · have := hI q h e' he'
            simp at this
          · exact hI2 q h e' he'

theorem packetsByCallID_errorsSurface {σ ε : Type} (find : Store σ ε)
    (uniq : List String → List String) :
    ∀ (fuel : Nat) (callID exclude : String) (st : σ × List (QueryRecord ε)),
      ∃ added, (packetsByCallID (journaled find) uniq fuel callID exclude st).2.2 = st.2 ++ added ∧
        ErrorsSurface added (packetsByCallID (journaled find) uniq fuel callID exclude st).1 := by
  intro fuel
  induction fuel with
  | zero =>
    intro callID exclude st
    exact ⟨[], by simp [packetsByCallID], fun q hq => by simp at hq⟩
  | succ fuel ih =>
    intro callID exclude st
    rw [packetsByCallID]
    rcases hf : find st.1 callID with ⟨⟨rs, err⟩, s1⟩
    have hj : journaled find st callID = ((rs, err), (s1, st.2 ++ [⟨callID, rs, err⟩])) := by
      simp [journaled, hf]
    rw [hj]
    cases err with
    | some e =>
      refine ⟨[⟨callID, rs, some e⟩], rfl, fun q hq e' he' => ?_⟩
      simp only [List.mem_singleton] at hq
      subst hq
      simp only [Option.some.injEq] at he'
      simp [he']
    | none =>
      simp only
      obtain ⟨added, hj2, hI2⟩ :=
        legLoop_errorsSurface (packetsByCallID (journaled find) uniq fuel) (ih) callID
          (callLegIDs uniq exclude callID rs) rs (s1, st.2 ++ [⟨callID, rs, none⟩])
      refine ⟨⟨callID, rs, none⟩ :: added, ?_, fun q hq e' he' => ?_⟩
      · simp only [hj2, List.append_assoc, List.singleton_append]
      · rcases List.mem_cons.1 hq with h | h
        · subst h; simp at he'
        · exact hI2 q h e' he'

/-- The journal does not change what the resolver computes. -/
theorem legLoop_journaled {σ ε : Type}
    (recJ : String → String → σ × List (QueryRecord ε) → Outcome ε × (σ × List (QueryRecord ε)))
    (rec0 : String → String → σ → Outcome ε × σ)
    (hrec : ∀ c x st, (recJ c x st).1 = (rec0 c x st.1).1 ∧ (recJ c x st).2.1 = (rec0 c x st.1).2)
    (callID : String) (cs : List String) :
    ∀ (acc : List PacketRecord) (st : σ × List (QueryRecord ε)),
      (legLoop recJ callID cs acc st).1 = (legLoop rec0 callID cs acc st.1).1 ∧
        (legLoop recJ callID cs acc st).2.1 = (legLoop rec0 callID cs acc st.1).2 := by
  induction cs with
  | nil => intro acc st; simp [legLoop]
  | cons c cs ih =>
    intro acc st
    obtain ⟨h1, h2⟩ := hrec c callID st
    rw [legLoop, legLoop]
    rcases hr : recJ c callID st with ⟨out, st1⟩
    rcases hr0 : rec0 c callID st.1 with ⟨out0, s0⟩
    rw [hr, hr0] at h1 h2
    simp only at h1 h2
    subst h1 h2
    cases out with
    | outOfFuel => simp
    | returned p err =>
      cases err with
      | some e => simp
      | none => exact ih (acc ++ p) st1

theorem packetsByCallID_journaled {σ ε : Type} (find : Store σ ε)
    (uniq : List String → List String) :
    ∀ (fuel : Nat) (callID exclude : String) (st : σ × List (QueryRecord ε)),
      (packetsByCallID (journaled find) uniq fuel callID exclude st).1
          = (packetsByCallID find uniq fuel callID exclude st.1).1 ∧
        (packetsByCallID (journaled find) uniq fuel callID exclude st).2.1
          = (packetsByCallID find uniq fuel callID exclude st.1).2 := by
  intro fuel
  induction fuel with
  | zero => intro callID exclude st; simp [packetsByCallID]
  | succ fuel ih =>
    intro callID exclude st
    rw [packetsByCallID, packetsByCallID]
    rcases hf : find st.1 callID with ⟨⟨rs, err⟩, s1⟩
    have hj : journaled find st callID = ((rs, err), (s1, st.2 ++ [⟨callID, rs, err⟩])) := by
      simp [journaled, hf]
    rw [hj]
    cases err with
    | some e => simp
    | none =>
      exact legLoop_journaled _ _ ih callID (callLegIDs uniq exclude callID rs) rs
        (s1, st.2 ++ [⟨callID, rs, none⟩])

/-- C2: if any `Find` query issued during `packetsByCallID(callID, exclude)`, at
whatever depth, answers with an error `e`, the call returns exactly `e` and no
records. -/
theorem packetsByCallID_error_propagates {σ ε : Type} (find : Store σ ε)
    (uniq : List String → List String) (fuel : Nat) (callID exclude : String) (s : σ)
    (q : QueryRecord ε) (e : ε)
    (hq : q ∈ (packetsByCallID (journaled find) uniq fuel callID exclude (s, [])).2.2)
    (he : q.err = some e) :
    (packetsByCallID find uniq fuel callID exclude s).1 = Outcome.returned [] (some e) := by
  obtain ⟨added, hj, hI⟩ := packetsByCallID_errorsSurface find uniq fuel callID exclude (s, [])
  rw [← (packetsByCallID_journaled find uniq fuel callID exclude (s, [])).1]
  rw [hj] at hq
  exact hI q (by simpa using hq) e he

theorem packetsByCallID_error_propagates_witness :
    (failingStore () "A").1 = ([legRecord "A" "", legRecord "B" "A"], none) ∧
      (packetsByCallID failingStore UniqueSlice 2 "A" "" ()).1
        = Outcome.returned [] (some "store unavailable") :=
  ⟨by decide,
    packetsByCallID_error_propagates failingStore UniqueSlice 2 "A" "" ()
      ⟨"B", [], some "store unavailable"⟩ "store unavailable" (by decide) rfl⟩

/-! ## A cycle of two legs -/

theorem uniq_singleton {uniq : List String → List String} (hu : IsUniqueSlice uniq)
    (x : String) : uniq [x] = [x] := by
  obtain ⟨hnd, hmem⟩ := hu [x]
  cases h : uniq [x] with
  | nil =>
    have := (hmem x).2 (by simp)
    simp [h] at this
  | cons a t =>
    rw [h] at hnd hmem
    have ha : a = x := by simpa using (hmem a).1 (by simp)
    subst ha
    cases t with
    | nil => rfl
    | cons b t =>
      have hb : b = a := by simpa using (hmem b).1 (by simp)
      subst hb
      simp at hnd

theorem legLoop_singleton_outOfFuel {σ ε : Type} (recurse : String → String → σ → Outcome ε × σ)
    (callID c : String) (acc : List PacketRecord) (s : σ)
    (h : (recurse c callID s).1 = Outcome.outOfFuel) :
    legLoop recurse callID [c] acc s = (Outcome.outOfFuel, (recurse c callID s).2) := by
  rw [legLoop]
  rcases hr : recurse c callID s with ⟨out, s1⟩
  rw [hr] at h
  simp only at h
  subst h
  rfl

theorem cycle_run (uniq : List String → List String) (hu : IsUniqueSlice uniq) :
    ∀ (n : Nat) (j : List (QueryRecord Unit)),
      ((packetsByCallID (journaled (storeOf Unit cycleDb)) uniq n "A" "" ((), j)).1
          = Outcome.outOfFuel ∧
        queriedIDs (packetsByCallID (journaled (storeOf Unit cycleDb)) uniq n "A" "" ((), j)).2.2
          = queriedIDs j ++ alternating n "A" "B") ∧
      ((packetsByCallID (journaled (storeOf Unit cycleDb)) uniq n "A" "B" ((), j)).1
          = Outcome.outOfFuel ∧
        queriedIDs (packetsByCallID (journaled (storeOf Unit cycleDb)) uniq n "A" "B" ((), j)).2.2
          = queriedIDs j ++ alternating n "A" "B") ∧
      ((packetsByCallID (journaled (storeOf Unit cycleDb)) uniq n "B" "A" ((), j)).1
          = Outcome.outOfFuel ∧
        queriedIDs (packetsByCallID (journaled (storeOf Unit cycleDb)) uniq n "B" "A" ((), j)).2.2
          = queriedIDs j ++ alternating n "B" "A") := by
  intro n
  induction n with
  | zero => intro j; simp [packetsByCallID, alternating]
  | succ n ih =>
    intro j
    have hA : journaled (storeOf Unit cycleDb) ((), j) "A"
        = ((cycleDb, none), ((), j ++ [⟨"A", cycleDb, none⟩])) := by
      simp only [journaled, storeOf]
      rfl
    have hB : journaled (storeOf Unit cycleDb) ((), j) "B"
        = ((cycleDb, none), ((), j ++ [⟨"B", cycleDb, none⟩])) := by
      simp only [journaled, storeOf]
      rfl
    have c1 : callLegIDs uniq "" "A" cycleDb = ["B"] := by
      have : collectLegIDs "" "A" cycleDb = ["B"] := by decide
      rw [callLegIDs, this, uniq_singleton hu]
    have c2 : callLegIDs uniq "B" "A" cycleDb = ["B"] := by
      have : collectLegIDs "B" "A" cycleDb = ["B"] := by decide
      rw [callLegIDs, this, uniq_singleton hu]
    have c3 : callLegIDs uniq "A" "B" cycleDb = ["A"] := by
      have : collectLegIDs "A" "B" cycleDb = ["A"] := by decide
      rw [callLegIDs, this, uniq_singleton hu]
    obtain ⟨_, _, ihB⟩ := ih (j ++ [⟨"A", cycleDb, none⟩])
    obtain ⟨_, ihA, _⟩ := ih (j ++ [⟨"B", cycleDb, none⟩])
    refine ⟨?_, ?_, ?_⟩
    · rw [packetsByCallID, hA]
      simp only [c1]
      rw [legLoop_singleton_outOfFuel _ _ _ _ _ ihB.1]
      refine ⟨rfl, ?_⟩
      simp only [ihB.2]
      simp [queriedIDs, alternating]
    · rw [packetsByCallID, hA]
      simp only [c2]
      rw [legLoop_singleton_outOfFuel _ _ _ _ _ ihB.1]
      refine ⟨rfl, ?_⟩
      simp only [ihB.2]
      simp [queriedIDs, alternating]
    · rw [packetsByCallID, hB]
      simp only [c3]
      rw [legLoop_singleton_outOfFuel _ _ _ _ _ ihA.1]
      refine ⟨rfl, ?_⟩
      simp only [ihA.2]
      simp [queriedIDs, alternating]

theorem cycleDb_not_acyclic : ¬ Acyclic cycleDb := by
  intro h
  refine h "A" (Relation.TransGen.head (b := "B") ?_ (Relation.TransGen.single ?_))
  · exact ⟨legRecord "B" "A", by decide, rfl, rfl⟩
  · exact ⟨legRecord "A" "B", by decide, rfl, rfl⟩

/-- C9: the store holding two records, `callId = A` with `callIdALeg = B` and
`callId = B` with `callIdALeg = A`, is finite, faithful, error-free and cyclic,
and `packetsByCallID("A", "")` does not terminate on it: under every recursion
bound `n` the run exceeds the bound, after having queried `A, B, A, B, ...`,
one query at each of the depths `1` to `n`. -/
theorem packetsByCallID_cycle_diverges (uniq : List String → List String)
    (hu : IsUniqueSlice uniq) (n : Nat) :
    Faithful cycleDb (storeOf Unit cycleDb) ∧ ¬ Acyclic cycleDb ∧
      (packetsByCallID (storeOf Unit cycleDb) uniq n "A" "" ()).1 = Outcome.outOfFuel ∧
      queriedIDs (packetsByCallID (journaled (storeOf Unit cycleDb)) uniq n "A" "" ((), [])).2.2
        = alternating n "A" "B" := by
  obtain ⟨⟨h1, h2⟩, _⟩ := cycle_run uniq hu n []
  refine ⟨faithful_storeOf Unit cycleDb, cycleDb_not_acyclic, ?_, ?_⟩
  · rw [← (packetsByCallID_journaled (storeOf Unit cycleDb) uniq n "A" "" ((), [])).1]
    exact h1
  · simpa [queriedIDs] using h2

theorem packetsByCallID_cycle_diverges_witness :
    Faithful cycleDb (storeOf Unit cycleDb) ∧ ¬ Acyclic cycleDb ∧
      (packetsByCallID (storeOf Unit cycleDb) UniqueSlice 4 "A" "" ()).1 = Outcome.outOfFuel ∧
      queriedIDs
          (packetsByCallID (journaled (storeOf Unit cycleDb)) UniqueSlice 4 "A" "" ((), [])).2.2
        = alternating 4 "A" "B" :=
  packetsByCallID_cycle_diverges UniqueSlice isUniqueSlice_uniqueSlice 4

/-! ## Call-leg trees -/

theorem chain_subset_callIds (db : List PacketRecord) :
    ∀ (path : List String) (a : String), List.Chain (IsChildLeg db) a path →
      ∀ x, x ∈ path → x ∈ db.map PacketRecord.CallId := by
  intro path
  induction path with
  | nil => intro a _ x hx; simp at hx
  | cons b path ih =>
    intro a hc x hx
    rw [List.chain_cons] at hc
    rcases List.mem_cons.1 hx with h | h
    · subst h
      obtain ⟨r, hr, _, hrc⟩ := hc.1
      exact List.mem_map.2 ⟨r, hr, hrc⟩
    · exact ih b hc.2 x h

theorem chain_nodup_of_acyclic {db : List PacketRecord} (hac : Acyclic db) (a : String)
    (path : List String) (hc : List.Chain (IsChildLeg db) a path) : path.Nodup := by
  have h1 : List.Chain (Relation.TransGen (IsChildLeg db)) a path :=
    List.Chain.imp (fun _ _ h => Relation.TransGen.single h) hc
  have h2 : List.Pairwise (Relation.TransGen (IsChildLeg db)) (a :: path) :=
    List.Chain.pairwise h1
  have h3 : List.Pairwise (fun x y => x ≠ y) (a :: path) :=
    List.Pairwise.imp (S := fun x y => x ≠ y)
      (fun {x y} hxy => fun hEq : x = y => hac x (by rw [← hEq] at hxy; exact hxy)) h2
  exact (List.nodup_cons.1 h3).2

/-- In an acyclic store no descending path is longer than the number of records. -/
theorem depthLE_of_acyclic {db : List PacketRecord} (hac : Acyclic db) (seed : String) :
    DepthLE db seed db.length := by
  intro path hc
  have hsub : path ⊆ db.map PacketRecord.CallId := chain_subset_callIds db path seed hc
  have := (List.subperm_of_subset (chain_nodup_of_acyclic hac seed path hc) hsub).length_le
  simpa using this

theorem depthLE_child {db : List PacketRecord} {seed c : String} {d : Nat}
    (hd : DepthLE db seed d) (hc : IsChildLeg db seed c) : 0 < d ∧ DepthLE db c (d - 1) := by
  have h1 : 1 ≤ d := hd [c] (List.Chain.cons hc List.Chain.nil)
  refine ⟨h1, fun path hp => ?_⟩
  have := hd (c :: path) (List.Chain.cons hc hp)
  simp only [List.length_cons] at this
  omega

theorem child_ne_of_acyclic {db : List PacketRecord} (hac : Acyclic db) {p c : String}
    (hc : IsChildLeg db p c) : p ≠ c := by
  intro h
  subst h
  exact hac p (Relation.TransGen.single hc)

theorem not_reaches_parent {db : List PacketRecord} (hac : Acyclic db) {p c : String}
    (hc : IsChildLeg db p c) : ¬ Reaches db c p := by
  intro h
  exact hac p (Relation.TransGen.head' hc h)

/-- In a forest two legs with a common descendant lie on one branch. -/
theorem reaches_comparable {db : List PacketRecord} (hup : UniqueParent db) {a b x : String}
    (ha : Reaches db a x) (hb : Reaches db b x) : Reaches db a b ∨ Reaches db b a := by
  induction ha with
  | refl => exact Or.inr hb
  | tail hay hyx ih =>
    rcases Relation.ReflTransGen.cases_tail hb with h | ⟨y', hby', hy'x⟩
    · subst h
      exact Or.inl (Relation.ReflTransGen.tail hay hyx)
    · have := hup _ _ _ hyx hy'x
      subst this
      exact ih hby'

/-- In a forest the subtrees below two different children of a leg are disjoint. -/
theorem subtrees_disjoint {db : List PacketRecord} (hac : Acyclic db) (hup : UniqueParent db)
    {p c1 c2 x : String} (h1 : IsChildLeg db p c1) (h2 : IsChildLeg db p c2) (hne : c1 ≠ c2)
    (hx1 : Reaches db c1 x) (hx2 : Reaches db c2 x) : False := by
  have key : ∀ {u v : String}, IsChildLeg db p u → IsChildLeg db p v → u ≠ v →
      Reaches db u v → False := by
    intro u v hu hv huv huv'
    rcases Relation.ReflTransGen.cases_tail huv' with h | ⟨y, huy, hyv⟩
    · exact huv h.symm
    · have := hup _ _ _ hyv hv
      subst this
      exact not_reaches_parent hac hu huy
  rcases reaches_comparable hup hx1 hx2 with h | h
  · exact key h1 h2 hne h
  · exact key h2 h1 (Ne.symm hne) h

/-! ## The resolver on a call-leg tree -/

theorem queriedIDs_append {ε : Type} (j1 j2 : List (QueryRecord ε)) :
    queriedIDs (j1 ++ j2) = queriedIDs j1 ++ queriedIDs j2 := by
  simp [queriedIDs]

theorem legLoop_tree {σ ε : Type} {db : List PacketRecord} (hac : Acyclic db)
    (recurse : String → String → σ × List (QueryRecord ε) → Outcome ε × (σ × List (QueryRecord ε)))
    (seed : String) :
    ∀ (cs : List String), (∀ c, c ∈ cs → IsChildLeg db seed c) →
      (∀ c, c ∈ cs → ∀ st, TreeRun db c st (recurse c seed st)) →
      ∀ (acc : List PacketRecord) (st : σ × List (QueryRecord ε)),
        ∃ rs s1 added,
          legLoop recurse seed cs acc st = (Outcome.returned rs none, (s1, st.2 ++ added)) ∧
          (∀ r, r ∈ rs ↔ (r ∈ acc ∨ (r ∈ db ∧ ∃ c, c ∈ cs ∧ Reaches db c r.CallId))) ∧
          (∀ x, x ∈ queriedIDs added ↔ ∃ c, c ∈ cs ∧ Reaches db c x) ∧
          (UniqueParent db → cs.Nodup → (queriedIDs added).Nodup) := by
  intro cs
  induction cs with
  | nil =>
    intro _ _ acc st
    exact ⟨acc, st.1, [], by simp [legLoop], by simp, by simp [queriedIDs],
      fun _ _ => by simp [queriedIDs]⟩
  | cons c cs ih =>
    intro hchild hrec acc st
    obtain ⟨rs1, s1, added1, h1, hm1, hq1, hn1⟩ := hrec c (List.mem_cons_self c cs) st
    obtain ⟨rs2, s2, added2, h2, hm2, hq2, hn2⟩ :=
      ih (fun c' hc' => hchild c' (List.mem_cons_of_mem c hc'))
        (fun c' hc' => hrec c' (List.mem_cons_of_mem c hc')) (acc ++ rs1) (s1, st.2 ++ added1)
    refine ⟨rs2, s2, added1 ++ added2, ?_, ?_, ?_, ?_⟩
    · rw [legLoop, h1]
      simp only
      rw [h2, List.append_assoc]
    · intro r
      rw [hm2, List.mem_append, hm1]
      constructor
      · rintro ((h | h) | h)
        · exact Or.inl h
        · exact Or.inr ⟨h.1, c, List.mem_cons_self c cs, h.2⟩
        · obtain ⟨hr, c', hc', hreach⟩ := h
          exact Or.inr ⟨hr, c', List.mem_cons_of_mem c hc', hreach⟩
      · rintro (h | ⟨hr, c', hc', hreach⟩)
        · exact Or.inl (Or.inl h)
        · rcases List.mem_cons.1 hc' with h | h
          · subst h; exact Or.inl (Or.inr ⟨hr, hreach⟩)
          · exact Or.inr ⟨hr, c', h, hreach⟩
    · intro x
      rw [queriedIDs_append, List.mem_append, hq1, hq2]
      constructor
      · rintro (h | ⟨c', hc', hreach⟩)
        · exact ⟨c, List.mem_cons_self c cs, h⟩
        · exact ⟨c', List.mem_cons_of_mem c hc', hreach⟩
      · rintro ⟨c', hc', hreach⟩
        rcases List.mem_cons.1 hc' with h | h
        · subst h; exact Or.inl hreach
        · exact Or.inr ⟨c', h, hreach⟩
    · intro hup hnd
      rw [queriedIDs_append, List.nodup_append]
      rw [List.nodup_cons] at hnd
      refine ⟨hn1 hup, hn2 hup hnd.2, ?_⟩
      intro x hx1 hx2
      rw [hq1] at hx1
      obtain ⟨c', hc', hreach⟩ := (hq2 x).1 hx2
      have hne : c ≠ c' := fun h => hnd.1 (h ▸ hc')
      exact subtrees_disjoint hac hup (hchild c (List.mem_cons_self c cs))
        (hchild c' (List.mem_cons_of_mem c hc')) hne hx1 hreach

theorem mem_callLegIDs_faithful {uniq : List String → List String} (hu : IsUniqueSlice uniq)
    {db : List PacketRecord} (hac : Acyclic db) (seed exclude : String)
    (hex : exclude = "" ∨ exclude ≠ seed) (rs : List PacketRecord)
    (hrs : ∀ r, r ∈ rs ↔ (r ∈ db ∧ (r.CallId = seed ∨ r.CallIdAleg = seed))) (c : String) :
    c ∈ callLegIDs uniq exclude seed rs ↔ IsChildLeg db seed c := by
  rw [mem_callLegIDs hu]
  constructor
  · rintro ⟨r, hr, hcol, hrc⟩
    obtain ⟨hdb, h | h⟩ := (hrs r).1 hr
    · exact absurd h hcol.2
    · exact ⟨r, hdb, h, hrc⟩
  · rintro ⟨r, hdb, hra, hrc⟩
    have hne : seed ≠ c := child_ne_of_acyclic hac ⟨r, hdb, hra, hrc⟩
    refine ⟨r, (hrs r).2 ⟨hdb, Or.inr hra⟩, ⟨?_, fun h => hne (h.symm.trans hrc)⟩, hrc⟩
    rintro ⟨h0, h1⟩
    rcases hex with h | h
    · exact h0 h
    · exact h (h1.symm.trans hra)

theorem packetsByCallID_tree {σ ε : Type} (find : Store σ ε) (uniq : List String → List String)
    (hu : IsUniqueSlice uniq) {db : List PacketRecord} (hf : Faithful db find)
    (hac : Acyclic db) :
    ∀ (fuel d : Nat) (seed exclude : String) (st : σ × List (QueryRecord ε)),
      d < fuel → DepthLE db seed d → (exclude = "" ∨ exclude ≠ seed) →
      TreeRun db seed st (packetsByCallID (journaled find) uniq fuel seed exclude st) := by
  intro fuel
  induction fuel with
  | zero => intro d _ _ _ hd; omega
  | succ fuel ih =>
    intro d seed exclude st hd hdepth hex
    rcases hfind : find st.1 seed with ⟨⟨rs0, err⟩, s1⟩
    obtain ⟨herr, hrs0⟩ := hf st.1 seed
    rw [hfind] at herr hrs0
    simp only at herr hrs0
    subst herr
    have hj : journaled find st seed = ((rs0, none), (s1, st.2 ++ [⟨seed, rs0, none⟩])) := by
      simp [journaled, hfind]
    have hcs := mem_callLegIDs_faithful hu hac seed exclude hex rs0 hrs0
    obtain ⟨rs, s2, added, hrun, hm, hq, hn⟩ :=
      legLoop_tree hac (packetsByCallID (journaled find) uniq fuel) seed
        (callLegIDs uniq exclude seed rs0) (fun c hc => (hcs c).1 hc)
        (fun c hc st' => by
          have hchild := (hcs c).1 hc
          obtain ⟨hpos, hdc⟩ := depthLE_child hdepth hchild
          exact ih (d - 1) c seed st' (by omega) hdc
            (Or.inr (child_ne_of_acyclic hac hchild)))
        rs0 (s1, st.2 ++ [⟨seed, rs0, none⟩])
    refine ⟨rs, s2, ⟨seed, rs0, none⟩ :: added, ?_, ?_, ?_, ?_⟩
    · rw [packetsByCallID, hj]
      simp only
      rw [hrun]
      simp
    · intro r
      rw [hm, hrs0]
      constructor
      · rintro (⟨hdb, h | h⟩ | ⟨hdb, c, hc, hreach⟩)
        · exact ⟨hdb, h ▸ Relation.ReflTransGen.refl⟩
        · exact ⟨hdb, Relation.ReflTransGen.single ⟨r, hdb, h, rfl⟩⟩
        · exact ⟨hdb, Relation.ReflTransGen.head ((hcs c).1 hc) hreach⟩
      · rintro ⟨hdb, hreach⟩
        rcases Relation.ReflTransGen.cases_head hreach with h | ⟨c, hc, hcr⟩
        · exact Or.inl ⟨hdb, Or.inl h.symm⟩
        · exact Or.inr ⟨hdb, c, (hcs c).2 hc, hcr⟩
    · intro x
      have : queriedIDs (⟨seed, rs0, none⟩ :: added) = seed :: queriedIDs added := rfl
      rw [this, List.mem_cons, hq]
      constructor
      · rintro (h | ⟨c, hc, hreach⟩)
        · exact h ▸ Relation.ReflTransGen.refl
        · exact Relation.ReflTransGen.head ((hcs c).1 hc) hreach
      · intro hreach
        rcases Relation.ReflTransGen.cases_head hreach with h | ⟨c, hc, hcr⟩
        · exact Or.inl h.symm
        · exact Or.inr ⟨c, (hcs c).2 hc, hcr⟩
    · intro hup
      have : queriedIDs (⟨seed, rs0, none⟩ :: added) = seed :: queriedIDs added := rfl
      rw [this, List.nodup_cons]
      refine ⟨fun hmem => ?_, hn hup (hu _).1⟩
      obtain ⟨c, hc, hreach⟩ := (hq seed).1 hmem
      exact not_reaches_parent hac ((hcs c).1 hc) hreach

theorem acyclic_of_rank {db : List PacketRecord} (rank : String → Nat)
    (h : ∀ r, r ∈ db → rank r.CallIdAleg < rank r.CallId) : Acyclic db := by
  have key : ∀ x y, Relation.TransGen (IsChildLeg db) x y → rank x < rank y := by
    intro x y hxy
    induction hxy with
    | single hc =>
      obtain ⟨r, hr, ha, hc⟩ := hc
      exact ha ▸ hc ▸ h r hr
    | tail _ hc ih =>
      obtain ⟨r, hr, ha, hc⟩ := hc
      exact lt_trans ih (ha ▸ hc ▸ h r hr)
  intro x hx
  exact lt_irrefl _ (key x x hx)

theorem uniqueParent_of_records {db : List PacketRecord}
    (h : ∀ r1, r1 ∈ db → ∀ r2, r2 ∈ db → r1.CallId = r2.CallId → r1.CallIdAleg = r2.CallIdAleg) :
    UniqueParent db := by
  rintro p q c ⟨r1, h1, ha1, hc1⟩ ⟨r2, h2, ha2, hc2⟩
  rw [← ha1, ← ha2]
  exact h r1 h1 r2 h2 (hc1.trans hc2.symm)

theorem legTree_treeDb : LegTree treeDb :=
  ⟨acyclic_of_rank treeRank (by decide), uniqueParent_of_records (by decide)⟩

/-- C1: on a store that answers `Find` faithfully and without error for a record
set whose leg/A-leg relation has no cycle (call-leg trees in particular),
`packetsByCallID(seed, "")` returns, for every recursion bound above the number
of records, a sequence whose records are exactly the records of the legs
reachable from `seed`, the seed's own records included. -/
theorem packetsByCallID_returns_reachable {σ ε : Type} (find : Store σ ε)
    (uniq : List String → List String) (hu : IsUniqueSlice uniq) (db : List PacketRecord)
    (hf : Faithful db find) (hac : Acyclic db) (seed : String) (s : σ) (fuel : Nat)
    (hfuel : db.length < fuel) :
    ∃ rs, (packetsByCallID find uniq fuel seed "" s).1 = Outcome.returned rs none ∧
      ∀ r, r ∈ rs ↔ ∃ leg, Reaches db seed leg ∧ r ∈ db ∧ r.CallId = leg := by
  obtain ⟨rs, s1, added, hrun, hm, _, _⟩ :=
    packetsByCallID_tree find uniq hu hf hac fuel db.length seed "" (s, []) hfuel
      (depthLE_of_acyclic hac seed) (Or.inl rfl)
  refine ⟨rs, ?_, fun r => ?_⟩
  · rw [← (packetsByCallID_journaled find uniq fuel seed "" (s, [])).1, hrun]
  · rw [hm]
    constructor
    · rintro ⟨hdb, hreach⟩
      exact ⟨r.CallId, hreach, hdb, rfl⟩
    · rintro ⟨leg, hreach, hdb, hleg⟩
      exact ⟨hdb, hleg ▸ hreach⟩

theorem packetsByCallID_returns_reachable_witness :
    Acyclic treeDb ∧
      ∃ rs, (packetsByCallID (storeOf Unit treeDb) UniqueSlice 5 "A" "" ()).1
          = Outcome.returned rs none ∧
        ∀ r, r ∈ rs ↔ ∃ leg, Reaches treeDb "A" leg ∧ r ∈ treeDb ∧ r.CallId = leg :=
  ⟨legTree_treeDb.1,
    packetsByCallID_returns_reachable (storeOf Unit treeDb) UniqueSlice isUniqueSlice_uniqueSlice
      treeDb (faithful_storeOf Unit treeDb) legTree_treeDb.1 "A" () 5 (by decide)⟩

/-- C8: on a faithful, error-free store whose leg/A-leg relation is a forest of
call-leg trees, the tree below `seed` has a finite depth, and for every bound `d`
on that depth `packetsByCallID(seed, "")` terminates within `d` nested recursive
calls below the top-level one; the `Find` queries it issues are exactly the legs
reachable from `seed`, each queried once. -/
theorem packetsByCallID_queries_each_leg_once {σ ε : Type} (find : Store σ ε)
    (uniq : List String → List String) (hu : IsUniqueSlice uniq) (db : List PacketRecord)
    (hf : Faithful db find) (htree : LegTree db) (seed : String) (s : σ) :
    (∃ d, DepthLE db seed d) ∧
      ∀ d, DepthLE db seed d →
        ∃ rs s1 journal,
          packetsByCallID (journaled find) uniq (d + 1) seed "" (s, [])
              = (Outcome.returned rs none, (s1, journal)) ∧
            (packetsByCallID find uniq (d + 1) seed "" s).1 = Outcome.returned rs none ∧
            (queriedIDs journal).Nodup ∧
            ∀ leg, leg ∈ queriedIDs journal ↔ Reaches db seed leg := by
  refine ⟨⟨db.length, depthLE_of_acyclic htree.1 seed⟩, fun d hd => ?_⟩
  obtain ⟨rs, s1, added, hrun, _, hq, hn⟩ :=
    packetsByCallID_tree find uniq hu hf htree.1 (d + 1) d seed "" (s, []) (Nat.lt_succ_self d)
      hd (Or.inl rfl)
  refine ⟨rs, s1, added, by simpa using hrun, ?_, hn htree.2, hq⟩
  rw [← (packetsByCallID_journaled find uniq (d + 1) seed "" (s, [])).1, hrun]

theorem depthLE_of_rank {db : List PacketRecord} (rank : String → Nat) (seed : String) (d : Nat)
    (h : ∀ r, r ∈ db → rank r.CallIdAleg < rank r.CallId)
    (hb : ∀ r, r ∈ db → rank r.CallId ≤ rank seed + d) : DepthLE db seed d := by
  have key : ∀ (path : List String) (a : String), List.Chain (IsChildLeg db) a path →
      path ≠ [] → rank a + path.length ≤ rank seed + d := by
    intro path
    induction path with
    | nil => intro a _ hne; exact absurd rfl hne
    | cons b t ih =>
      intro a hc _
      rw [List.chain_cons] at hc
      obtain ⟨r, hr, hra, hrc⟩ := hc.1
      have hlt : rank a < rank b := hra ▸ hrc ▸ h r hr
      cases t with
      | nil =>
        have := hb r hr
        rw [hrc] at this
        simp only [List.length_singleton]
        omega
      | cons c t =>
        have := ih b hc.2 (by simp)
        simp only [List.length_cons] at this ⊢
        omega
  intro path hc
  cases path with
  | nil => simp
  | cons b t =>
    have := key (b :: t) seed hc (by simp)
    omega

theorem depthLE_treeDb : DepthLE treeDb "A" 2 :=
  depthLE_of_rank treeRank "A" 2 (by decide) (by decide)

theorem packetsByCallID_queries_each_leg_once_witness :
    LegTree treeDb ∧ DepthLE treeDb "A" 2 ∧
      (∃ rs s1 journal,
        packetsByCallID (journaled (storeOf Unit treeDb)) UniqueSlice (2 + 1) "A" "" ((), [])
            = (Outcome.returned rs none, (s1, journal)) ∧
          (packetsByCallID (storeOf Unit treeDb) UniqueSlice (2 + 1) "A" "" ()).1
            = Outcome.returned rs none ∧
          (queriedIDs journal).Nodup ∧
          ∀ leg, leg ∈ queriedIDs journal ↔ Reaches treeDb "A" leg) ∧
      queriedIDs (packetsByCallID (journaled (storeOf Unit treeDb)) UniqueSlice 3 "A" ""
        ((), [])).2.2 = ["A", "B", "C", "D"] :=
  ⟨legTree_treeDb, depthLE_treeDb,
    (packetsByCallID_queries_each_leg_once (storeOf Unit treeDb) UniqueSlice
      isUniqueSlice_uniqueSlice treeDb (faithful_storeOf Unit treeDb) legTree_treeDb "A" ()).2 2
      depthLE_treeDb,
    by decide⟩

/-! ## The de-duplication walk -/

theorem dedupWalk_foldl (suf : List PacketRecord) :
    ∀ (pre acc : List PacketRecord),
      (suf.enumFrom pre.length).foldl
          (fun results iv =>
            if iv.1 = 0 ∨ some iv.2 ≠ (pre ++ suf)[iv.1 - 1]? then results ++ [iv.2] else results)
          acc
        = acc ++ dedupFrom pre.getLast? suf := by
  induction suf with
  | nil => intro pre acc; simp [dedupFrom]
  | cons x t ih =>
    intro pre acc
    have hih := ih (pre ++ [x])
    simp only [List.length_append, List.length_singleton, List.append_assoc,
      List.singleton_append, List.getLast?_concat] at hih
    rw [List.enumFrom_cons, List.foldl_cons, hih, dedupFrom]
    cases pre with
    | nil => simp
    | cons p pre =>
      have hlast : ((p :: pre) ++ x :: t)[(p :: pre).length - 1]? = (p :: pre).getLast? := by
        rw [List.getLast?_eq_getElem?]
        exact List.getElem?_append_left (by simp)
      simp only [hlast]
      by_cases h : (p :: pre).getLast? = some x
      · simp [h]
      · have h2 : some x ≠ (p :: pre).getLast? := fun h3 => h h3.symm
        simp [h, h2]

theorem dedupWalk_eq (xs : List PacketRecord) : dedupWalk xs = dedupFrom none xs := by
  have := dedupWalk_foldl xs [] []
  simpa [dedupWalk, List.enum] using this

theorem dedupKept_foldl (xs : List PacketRecord) :
    ∀ kept : List PacketRecord,
      xs.foldl (fun kept val => if kept.getLast? = some val then kept else kept ++ [val]) kept
        = kept ++ dedupFrom kept.getLast? xs := by
  induction xs with
  | nil => intro kept; simp [dedupFrom]
  | cons x t ih =>
    intro kept
    rw [List.foldl_cons, dedupFrom]
    by_cases h : kept.getLast? = some x
    · rw [if_pos h, if_pos h, ih, h]
    · rw [if_neg h, if_neg h, ih, List.getLast?_concat]
      simp

theorem dedupKept_eq (xs : List PacketRecord) : dedupKept xs = dedupFrom none xs := by
  have := dedupKept_foldl xs []
  simpa [dedupKept] using this

theorem dedupFrom_chain (xs : List PacketRecord) :
    ∀ p : PacketRecord, List.Chain (fun a b => a ≠ b) p (dedupFrom (some p) xs) := by
  induction xs with
  | nil => intro p; simp [dedupFrom]
  | cons x t ih =>
    intro p
    rw [dedupFrom]
    by_cases h : some p = some x
    · rw [if_pos h]
      have hpx : p = x := Option.some.inj h
      subst hpx
      exact ih p
    · rw [if_neg h]
      exact List.Chain.cons (fun hpx => h (congrArg some hpx)) (ih x)

theorem dedupFrom_none_chain' (xs : List PacketRecord) :
    List.Chain' (fun a b => a ≠ b) (dedupFrom none xs) := by
  cases xs with
  | nil => simp [dedupFrom]
  | cons x t =>
    rw [dedupFrom, if_neg (by simp)]
    exact dedupFrom_chain t x

theorem dedupWalk_chain' (xs : List PacketRecord) :
    List.Chain' (fun a b => a ≠ b) (dedupWalk xs) := by
  rw [dedupWalk_eq]
  exact dedupFrom_none_chain' xs

/-- C3: the walk of the handlers, which compares each record with the preceding
input record, leaves no two adjacent equal records, and produces the same sequence
as the walk that compares with the preceding kept record. -/
theorem dedupWalk_no_adjacent_equal (dbResults : List PacketRecord) :
    List.Chain' (fun a b => a ≠ b) (dedupWalk dbResults) ∧
      dedupWalk dbResults = dedupKept dbResults := by
  refine ⟨dedupWalk_chain' dbResults, ?_⟩
  rw [dedupWalk_eq, dedupKept_eq]

/-! ## Normalize -/

theorem dedupFrom_sublist (xs : List PacketRecord) :
    ∀ prev : Option PacketRecord, List.Sublist (dedupFrom prev xs) xs := by
  induction xs with
  | nil => intro prev; simp [dedupFrom]
  | cons x t ih =>
    intro prev
    rw [dedupFrom]
    split
    · exact List.Sublist.cons x (ih _)
    · exact List.Sublist.cons₂ x (ih _)

theorem dedupFrom_of_chain (xs : List PacketRecord) :
    ∀ p : PacketRecord, List.Chain (fun a b => a ≠ b) p xs → dedupFrom (some p) xs = xs := by
  induction xs with
  | nil => intro p _; simp [dedupFrom]
  | cons x t ih =>
    intro p hc
    rw [List.chain_cons] at hc
    rw [dedupFrom, if_neg (fun h => hc.1 (Option.some.inj h)), ih x hc.2]

theorem dedupWalk_of_chain' (xs : List PacketRecord)
    (h : List.Chain' (fun a b => a ≠ b) xs) : dedupWalk xs = xs := by
  rw [dedupWalk_eq]
  cases xs with
  | nil => simp [dedupFrom]
  | cons x t =>
    rw [dedupFrom, if_neg (by simp), dedupFrom_of_chain t x h]

theorem dedupWalk_sublist (xs : List PacketRecord) : List.Sublist (dedupWalk xs) xs := by
  rw [dedupWalk_eq]
  exact dedupFrom_sublist xs none

theorem mem_dedupFrom (r : PacketRecord) (xs : List PacketRecord) :
    ∀ prev : Option PacketRecord, r ∈ xs → r ∈ dedupFrom prev xs ∨ prev = some r := by
  induction xs with
  | nil => intro prev h; simp at h
  | cons x t ih =>
    intro prev hmem
    rw [dedupFrom]
    by_cases hp : prev = some x
    · rw [if_pos hp]
      rcases List.mem_cons.1 hmem with h | h
      · exact Or.inr (h ▸ hp)
      · rcases ih (some x) h with h' | h'
        · exact Or.inl h'
        · exact Or.inr (hp.trans h')
    · rw [if_neg hp]
      rcases List.mem_cons.1 hmem with h | h
      · exact Or.inl (h ▸ List.mem_cons_self x _)
      · rcases ih (some x) h with h' | h'
        · exact Or.inl (List.mem_cons_of_mem x h')
        · exact Or.inl ((Option.some.inj h') ▸ List.mem_cons_self x _)

theorem mem_dedupWalk (r : PacketRecord) (xs : List PacketRecord) :
    r ∈ dedupWalk xs ↔ r ∈ xs := by
  constructor
  · exact fun h => (dedupWalk_sublist xs).subset h
  · intro h
    rw [dedupWalk_eq]
    rcases mem_dedupFrom r xs none h with h2 | h2
    · exact h2
    · simp at h2

theorem keyLE_isTotal {κ : Type} [LinearOrder κ] (key : PacketRecord → κ) :
    IsTotal PacketRecord (fun a b => key a ≤ key b) :=
  ⟨fun a b => le_total (key a) (key b)⟩

theorem keyLE_isTrans {κ : Type} [LinearOrder κ] (key : PacketRecord → κ) :
    IsTrans PacketRecord (fun a b => key a ≤ key b) :=
  ⟨fun _ _ _ hab hbc => le_trans hab hbc⟩

theorem keyGE_isTotal {κ : Type} [LinearOrder κ] (key : PacketRecord → κ) :
    IsTotal PacketRecord (fun a b => key b ≤ key a) :=
  ⟨fun a b => le_total (key b) (key a)⟩

theorem keyGE_isTrans {κ : Type} [LinearOrder κ] (key : PacketRecord → κ) :
    IsTrans PacketRecord (fun a b => key b ≤ key a) :=
  ⟨fun _ _ _ hab hbc => le_trans hbc hab⟩

theorem tieFree_of_subset {κ : Type} {key : PacketRecord → κ} {xs ys : List PacketRecord}
    (h : TieFree key xs) (hsub : ∀ a, a ∈ ys → a ∈ xs) : TieFree key ys :=
  fun a ha b hb hk => h a (hsub a ha) b (hsub b hb) hk

/-- When no two different records share a key, the ascending rearrangement is unique. -/
theorem sorted_perm_unique {κ : Type} [LinearOrder κ] (key : PacketRecord → κ)
    (l1 l2 : List PacketRecord) (hp : l1.Perm l2)
    (h1 : List.Sorted (fun a b => key a ≤ key b) l1)
    (h2 : List.Sorted (fun a b => key a ≤ key b) l2) (ht : TieFree key l1) : l1 = l2 := by
  haveI : IsAntisymm PacketRecord (fun a b => key a < key b ∨ a = b) :=
    ⟨fun a b hab hba => by
      rcases hab with h | h
      · rcases hba with h' | h'
        · exact absurd (lt_trans h h') (lt_irrefl _)
        · exact h'.symm
      · exact h⟩
  have conv : ∀ l : List PacketRecord, TieFree key l →
      List.Sorted (fun a b => key a ≤ key b) l →
      List.Sorted (fun a b => key a < key b ∨ a = b) l := by
    intro l hl hs
    exact List.Pairwise.imp_of_mem
      (fun {a b} ha hb hab => (lt_or_eq_of_le hab).imp id (fun h => hl a ha b hb h)) hs
  exact List.eq_of_perm_of_sorted hp (conv l1 ht h1)
    (conv l2 (tieFree_of_subset ht (fun a ha => hp.symm.subset ha)) h2)

theorem nodup_of_sorted_chain' {κ : Type} [LinearOrder κ] (key : PacketRecord → κ) :
    ∀ l : List PacketRecord, TieFree key l → List.Sorted (fun a b => key a ≤ key b) l →
      List.Chain' (fun a b => a ≠ b) l → l.Nodup
  | [], _, _, _ => List.nodup_nil
  | [a], _, _, _ => List.nodup_singleton a
  | a :: b :: t, ht, hs, hc => by
    have hs' : List.Sorted (fun a b => key a ≤ key b) (b :: t) := (List.pairwise_cons.1 hs).2
    have hc' : List.Chain' (fun a b => a ≠ b) (b :: t) := (List.chain'_cons.1 hc).2
    have hab : a ≠ b := (List.chain'_cons.1 hc).1
    have ht' : TieFree key (b :: t) := tieFree_of_subset ht (fun x hx => List.mem_cons_of_mem a hx)
    refine List.nodup_cons.2 ⟨fun hmem => ?_, nodup_of_sorted_chain' key (b :: t) ht' hs' hc'⟩
    rcases List.mem_cons.1 hmem with h | h
    · exact hab h
    · have h1 : key a ≤ key b := (List.pairwise_cons.1 hs).1 b (List.mem_cons_self b t)
      have h2 : key b ≤ key a := (List.pairwise_cons.1 hs').1 a h
      exact hab (ht a (List.mem_cons_self a _) b (List.mem_cons_of_mem a (List.mem_cons_self b t))
        (le_antisymm h1 h2))

theorem normalize_sorted {κ : Type} [LinearOrder κ] (key : PacketRecord → κ)
    (sortFn : List PacketRecord → List PacketRecord) (hs : IsSort key sortFn)
    (xs : List PacketRecord) :
    List.Sorted (fun a b => key a ≤ key b) (Normalize sortFn xs) :=
  List.Pairwise.sublist (dedupWalk_sublist _) (hs xs).2

theorem mem_normalize {κ : Type} [LinearOrder κ] (key : PacketRecord → κ)
    (sortFn : List PacketRecord → List PacketRecord) (hs : IsSort key sortFn)
    (r : PacketRecord) (xs : List PacketRecord) : r ∈ Normalize sortFn xs ↔ r ∈ xs := by
  unfold Normalize
  rw [mem_dedupWalk]
  exact ⟨fun h => (hs xs).1.subset h, fun h => (hs xs).1.symm.subset h⟩

theorem stableSort_isSort {κ : Type} [LinearOrder κ] (key : PacketRecord → κ) :
    IsSort key (stableSort key) := by
  intro l
  haveI := keyLE_isTotal key
  haveI := keyLE_isTrans key
  exact ⟨List.perm_insertionSort _ l, List.sorted_insertionSort _ l⟩

theorem stableSort_seesOnlyKeys {κ : Type} [LinearOrder κ] (key : PacketRecord → κ) :
    SeesOnlyKeys key (stableSort key) := by
  intro f hf l
  unfold stableSort
  rw [List.map_insertionSort (fun a b => key a ≤ key b) (fun a b => key a ≤ key b) f l]
  intro a _ b _
  rw [hf a, hf b]

theorem stableSort_of_sorted {κ : Type} [LinearOrder κ] (key : PacketRecord → κ)
    (l : List PacketRecord) (h : List.Sorted (fun a b => key a ≤ key b) l) :
    stableSort key l = l :=
  List.Sorted.insertionSort_eq h

theorem reversingSort_isSort {κ : Type} [LinearOrder κ] (key : PacketRecord → κ) :
    IsSort key (reversingSort key) := by
  intro l
  haveI := keyGE_isTotal key
  haveI := keyGE_isTrans key
  refine ⟨(List.reverse_perm _).trans (List.perm_insertionSort _ l), ?_⟩
  unfold reversingSort List.Sorted
  rw [List.pairwise_reverse]
  exact List.sorted_insertionSort (fun a b => key b ≤ key a) l

theorem reversingSort_seesOnlyKeys {κ : Type} [LinearOrder κ] (key : PacketRecord → κ) :
    SeesOnlyKeys key (reversingSort key) := by
  intro f hf l
  unfold reversingSort
  have hmap := List.map_insertionSort (fun a b => key b ≤ key a) (fun a b => key b ≤ key a) f l
    (fun a _ b _ => by simp only [hf a, hf b])
  rw [← hmap, List.map_reverse]

theorem perm_pair_cases {x y : PacketRecord} {l : List PacketRecord} (h : l.Perm [x, y]) :
    l = [x, y] ∨ l = [y, x] := by
  have hlen := h.length_eq
  match l, hlen with
  | [a, b], _ =>
    have ha : a = x ∨ a = y := by simpa using h.subset (List.mem_cons_self a [b])
    rcases ha with ha | ha
    · rw [ha] at h ⊢
      have hb : [b].Perm [y] := (List.perm_cons x).1 h
      rw [List.perm_singleton.1 hb]
      exact Or.inl rfl
    · rw [ha] at h ⊢
      have hb : [b].Perm [x] := (List.perm_cons y).1 (h.trans (List.Perm.swap y x []))
      rw [List.perm_singleton.1 hb]
      exact Or.inr rfl

/-- Two different records with equal keys come out of `Normalize` in an order
that follows the input order, for every sort that reaches the records through
their keys only. -/
theorem normalize_reverse_ne {κ : Type} [LinearOrder κ] (key : PacketRecord → κ)
    (x y : PacketRecord) (hxy : x ≠ y) (hk : key x = key y)
    (sortFn : List PacketRecord → List PacketRecord) (hs : IsSort key sortFn)
    (hb : SeesOnlyKeys key sortFn) :
    Normalize sortFn [x, y].reverse ≠ Normalize sortFn [x, y] := by
  have hf : ∀ a, key (if a = x then y else if a = y then x else a) = key a := by
    intro a
    by_cases h1 : a = x
    · rw [if_pos h1, h1, hk]
    · by_cases h2 : a = y
      · rw [if_neg h1, if_pos h2, h2, hk]
      · rw [if_neg h1, if_neg h2]
  have hmap : [x, y].map (fun a => if a = x then y else if a = y then x else a) = [y, x] := by
    simp [Ne.symm hxy]
  have hrev : [x, y].reverse = [y, x] := rfl
  have hxyc : dedupWalk [x, y] = [x, y] := dedupWalk_of_chain' _ (by simp [hxy])
  have hyxc : dedupWalk [y, x] = [y, x] := dedupWalk_of_chain' _ (by simp [Ne.symm hxy])
  have hcomm := hb _ hf [x, y]
  rw [hmap] at hcomm
  unfold Normalize
  rw [hrev, hcomm]
  rcases perm_pair_cases (hs [x, y]).1 with h | h
  · rw [h, hmap, hyxc, hxyc]
    intro hEq
    exact hxy (List.cons.inj hEq).1.symm
  · have hmap2 : [y, x].map (fun a => if a = x then y else if a = y then x else a) = [x, y] := by
      simp [Ne.symm hxy]
    rw [h, hmap2, hxyc, hyxc]
    intro hEq
    exact hxy (List.cons.inj hEq).1

/-! ### Idempotence -/

/-- With the sort that reverses equal keys, a second `Normalize` swaps two
different records with equal keys back. -/
theorem normalize_reversing_twice {κ : Type} [LinearOrder κ] (key : PacketRecord → κ)
    (x y : PacketRecord) (hxy : x ≠ y) (hk : key x = key y) :
    Normalize (reversingSort key) [x, y] = [y, x] ∧
      Normalize (reversingSort key) (Normalize (reversingSort key) [x, y]) = [x, y] := by
  have hs1 : List.Sorted (fun a b => key b ≤ key a) [x, y] := by
    simp [List.Sorted, hk]
  have hs2 : List.Sorted (fun a b => key b ≤ key a) [y, x] := by
    simp [List.Sorted, hk]
  have h1 : reversingSort key [x, y] = [y, x] := by
    unfold reversingSort
    rw [List.Sorted.insertionSort_eq hs1]
    rfl
  have h2 : reversingSort key [y, x] = [x, y] := by
    unfold reversingSort
    rw [List.Sorted.insertionSort_eq hs2]
    rfl
  have w1 : dedupWalk [y, x] = [y, x] := dedupWalk_of_chain' _ (by simp [Ne.symm hxy])
  have w2 : dedupWalk [x, y] = [x, y] := dedupWalk_of_chain' _ (by simp [hxy])
  constructor
  · unfold Normalize
    rw [h1, w1]
  · unfold Normalize
    rw [h1, w1, h2, w2]

/-- C4, as stated, fails under the specified sort keys: `inviteRecord` and
`ackRecord` differ in the payload only, so they have the same key, for the key
of specification 4.2 and for the key of specification 8.  A sort that meets the
contract of `sort.Sort`, reaches the records through their keys only and puts
equal keys in reverse input order makes a second `Normalize` swap the two
records again. -/
theorem normalize_idempotent_counterexample :
    (IsSort sortKey (reversingSort sortKey) ∧ SeesOnlyKeys sortKey (reversingSort sortKey)) ∧
      (IsSort timeKey (reversingSort timeKey) ∧ SeesOnlyKeys timeKey (reversingSort timeKey)) ∧
      Normalize (reversingSort sortKey)
          (Normalize (reversingSort sortKey) [inviteRecord, ackRecord])
        ≠ Normalize (reversingSort sortKey) [inviteRecord, ackRecord] ∧
      Normalize (reversingSort timeKey)
          (Normalize (reversingSort timeKey) [inviteRecord, ackRecord])
        ≠ Normalize (reversingSort timeKey) [inviteRecord, ackRecord] := by
  have hne : inviteRecord ≠ ackRecord := by decide
  have hlist : [inviteRecord, ackRecord] ≠ [ackRecord, inviteRecord] := by decide
  obtain ⟨a1, a2⟩ := normalize_reversing_twice sortKey inviteRecord ackRecord hne rfl
  obtain ⟨b1, b2⟩ := normalize_reversing_twice timeKey inviteRecord ackRecord hne rfl
  refine ⟨⟨reversingSort_isSort sortKey, reversingSort_seesOnlyKeys sortKey⟩,
    ⟨reversingSort_isSort timeKey, reversingSort_seesOnlyKeys timeKey⟩, ?_, ?_⟩
  · rw [a2, a1]
    exact hlist
  · rw [b2, b1]
    exact hlist

/-- C4, amended: for every sort meeting the contract of `sort.Sort`, whatever
key `Less` compares, `Normalize` is idempotent on every sequence in which no two
different records share a sort key, and on every sequence when the sort leaves
an ascending sequence unchanged. -/
theorem normalize_idempotent {κ : Type} [LinearOrder κ] (key : PacketRecord → κ)
    (sortFn : List PacketRecord → List PacketRecord) (hs : IsSort key sortFn)
    (xs : List PacketRecord)
    (h : TieFree key xs ∨
      ∀ l, List.Sorted (fun a b => key a ≤ key b) l → sortFn l = l) :
    Normalize sortFn (Normalize sortFn xs) = Normalize sortFn xs := by
  have hsorted := normalize_sorted key sortFn hs xs
  have hc : List.Chain' (fun a b => a ≠ b) (Normalize sortFn xs) := dedupWalk_chain' (sortFn xs)
  have hfix : sortFn (Normalize sortFn xs) = Normalize sortFn xs := by
    rcases h with ht | hfixed
    · have ht' : TieFree key (sortFn (Normalize sortFn xs)) :=
        tieFree_of_subset ht (fun a ha =>
          (mem_normalize key sortFn hs a xs).1 ((hs (Normalize sortFn xs)).1.subset ha))
      exact sorted_perm_unique key _ _ (hs (Normalize sortFn xs)).1
        (hs (Normalize sortFn xs)).2 hsorted ht'
    · exact hfixed _ hsorted
  show dedupWalk (sortFn (Normalize sortFn xs)) = Normalize sortFn xs
  rw [hfix]
  exact dedupWalk_of_chain' _ hc

theorem normalize_idempotent_witness :
    Normalize (stableSort sortKey)
        (Normalize (stableSort sortKey) [inviteRecord, ackRecord, inviteRecord])
      = Normalize (stableSort sortKey) [inviteRecord, ackRecord, inviteRecord] :=
  normalize_idempotent sortKey (stableSort sortKey) (stableSort_isSort sortKey)
    [inviteRecord, ackRecord, inviteRecord] (Or.inr (stableSort_of_sorted sortKey))

/-! ### Order of the input -/

/-- C5, as stated, fails under the specified sort keys: `inviteRecord` and
`ackRecord` differ in the payload only.  With the stable sort the reversed input
gives the reversed output, and two identical records separated by the other one
are both kept; no sort that meets the contract of `sort.Sort` and reaches the
records through their keys only makes `Normalize` agree on reversed inputs,
neither for the key of specification 4.2 nor for the key of specification 8. -/
theorem normalize_order_counterexample :
    (IsSort sortKey (stableSort sortKey) ∧ SeesOnlyKeys sortKey (stableSort sortKey)) ∧
      Normalize (stableSort sortKey) [inviteRecord, ackRecord].reverse
        ≠ Normalize (stableSort sortKey) [inviteRecord, ackRecord] ∧
      Normalize (stableSort sortKey) [inviteRecord, ackRecord, inviteRecord]
        = [inviteRecord, ackRecord, inviteRecord] ∧
      (¬ ∃ sortFn, IsSort sortKey sortFn ∧ SeesOnlyKeys sortKey sortFn ∧
        ∀ xs, Normalize sortFn xs.reverse = Normalize sortFn xs) ∧
      (¬ ∃ sortFn, IsSort timeKey sortFn ∧ SeesOnlyKeys timeKey sortFn ∧
        ∀ xs, Normalize sortFn xs.reverse = Normalize sortFn xs) := by
  have hne : inviteRecord ≠ ackRecord := by decide
  have hk : sortKey ackRecord = sortKey inviteRecord := rfl
  have hs3 : List.Sorted (fun a b => sortKey a ≤ sortKey b)
      [inviteRecord, ackRecord, inviteRecord] := by
    simp [List.Sorted, hk]
  refine ⟨⟨stableSort_isSort sortKey, stableSort_seesOnlyKeys sortKey⟩, ?_, ?_, ?_, ?_⟩
  · exact normalize_reverse_ne sortKey inviteRecord ackRecord hne rfl _
      (stableSort_isSort sortKey) (stableSort_seesOnlyKeys sortKey)
  · unfold Normalize
    rw [stableSort_of_sorted sortKey _ hs3]
    decide
  · rintro ⟨sortFn, hs, hb, hall⟩
    exact normalize_reverse_ne sortKey inviteRecord ackRecord hne rfl sortFn hs hb
      (hall [inviteRecord, ackRecord])
  · rintro ⟨sortFn, hs, hb, hall⟩
    exact normalize_reverse_ne timeKey inviteRecord ackRecord hne rfl sortFn hs hb
      (hall [inviteRecord, ackRecord])

/-- C5, amended: for every sort meeting the contract of `sort.Sort`, whatever
key `Less` compares, `Normalize` gives the same output on any two arrangements
of a sequence in which no two different records share a sort key, the reversed
one included; that output holds every record of the input exactly once. -/
theorem normalize_order_independent {κ : Type} [LinearOrder κ] (key : PacketRecord → κ)
    (sortFn : List PacketRecord → List PacketRecord) (hs : IsSort key sortFn)
    (xs ys : List PacketRecord) (hp : ys.Perm xs) (ht : TieFree key xs) :
    Normalize sortFn ys = Normalize sortFn xs ∧
      Normalize sortFn xs.reverse = Normalize sortFn xs ∧
      (Normalize sortFn xs).Nodup ∧ ∀ r, r ∈ Normalize sortFn xs ↔ r ∈ xs := by
  have key1 : ∀ zs : List PacketRecord, zs.Perm xs → Normalize sortFn zs = Normalize sortFn xs := by
    intro zs hz
    unfold Normalize
    have hperm : (sortFn zs).Perm (sortFn xs) := ((hs zs).1.trans hz).trans (hs xs).1.symm
    have htz : TieFree key (sortFn zs) :=
      tieFree_of_subset ht (fun a ha => hz.subset ((hs zs).1.subset ha))
    rw [sorted_perm_unique key _ _ hperm (hs zs).2 (hs xs).2 htz]
  have htn : TieFree key (Normalize sortFn xs) :=
    tieFree_of_subset ht (fun a ha => (mem_normalize key sortFn hs a xs).1 ha)
  exact ⟨key1 ys hp, key1 _ (List.reverse_perm xs),
    nodup_of_sorted_chain' key _ htn (normalize_sorted key sortFn hs xs)
      (dedupWalk_chain' (sortFn xs)),
    fun r => mem_normalize key sortFn hs r xs⟩

theorem sortKey_eq_fields {a b : PacketRecord} (h : sortKey a = sortKey b) :
    a.CallId = b.CallId ∧ a.CallIdAleg = b.CallIdAleg := by
  simp only [sortKey, EmbeddingLike.apply_eq_iff_eq, Prod.mk.injEq] at h
  exact ⟨h.2.2.1, h.2.2.2.1⟩

theorem tieFree_of_legs (xs : List PacketRecord)
    (h : ∀ a, a ∈ xs → ∀ b, b ∈ xs → a.CallId = b.CallId → a.CallIdAleg = b.CallIdAleg → a = b) :
    TieFree sortKey xs :=
  fun a ha b hb hk => h a ha b hb (sortKey_eq_fields hk).1 (sortKey_eq_fields hk).2

theorem normalize_order_independent_witness :
    Normalize (stableSort sortKey) [legRecord "B" "A", legRecord "A" "", legRecord "B" "A"]
        = Normalize (stableSort sortKey)
            [legRecord "A" "", legRecord "B" "A", legRecord "B" "A"] ∧
      Normalize (stableSort sortKey) [legRecord "A" "", legRecord "B" "A", legRecord "B" "A"].reverse
        = Normalize (stableSort sortKey)
            [legRecord "A" "", legRecord "B" "A", legRecord "B" "A"] ∧
      (Normalize (stableSort sortKey)
        [legRecord "A" "", legRecord "B" "A", legRecord "B" "A"]).Nodup ∧
      ∀ r, r ∈ Normalize (stableSort sortKey)
          [legRecord "A" "", legRecord "B" "A", legRecord "B" "A"] ↔
        r ∈ [legRecord "A" "", legRecord "B" "A", legRecord "B" "A"] :=
  normalize_order_independent sortKey (stableSort sortKey) (stableSort_isSort sortKey)
    [legRecord "A" "", legRecord "B" "A", legRecord "B" "A"]
    [legRecord "B" "A", legRecord "A" "", legRecord "B" "A"] (List.Perm.swap _ _ _)
    (tieFree_of_legs _ (by decide))

/-! ## The `limit` option -/

theorem buildFilter_options (sanatizedForm : Values → Values)
    (parseDate : String → Except String String) (rForm : Values) (filter : Filter)
    (options : Options)
    (h : buildFilter sanatizedForm parseDate rForm = Except.ok (filter, options)) :
    options.Limit = limitOption ((sanatizedForm rForm).Get "limit") := by
  unfold buildFilter at h
  simp only at h
  split at h
  · exact absurd h (by simp)
  · split at h
    · exact absurd h (by simp)
    · simp only [Except.ok.injEq, Prod.mk.injEq] at h
      rw [← h.2]

theorem values_get_of_index_nil (form : Values) (key : String) (h : form.index key = []) :
    form.Get key = "" := by
  simp [Values.Get, h]

/-- C7: whenever the search handler gets as far as building its options, the
limit is 50 if the `limit` parameter is missing or empty or `strconv.Atoi`
rejects it, and it is the integer `strconv.Atoi` parsed otherwise. -/
theorem buildFilter_limit (sanatizedForm : Values → Values)
    (parseDate : String → Except String String) (rForm : Values) (filter : Filter)
    (options : Options)
    (h : buildFilter sanatizedForm parseDate rForm = Except.ok (filter, options)) :
    ((sanatizedForm rForm).index "limit" = [] → options.Limit = 50) ∧
      ((sanatizedForm rForm).Get "limit" = "" → options.Limit = 50) ∧
      (Atoi ((sanatizedForm rForm).Get "limit") = none → options.Limit = 50) ∧
      ∀ n : Int, (sanatizedForm rForm).Get "limit" ≠ "" →
        Atoi ((sanatizedForm rForm).Get "limit") = some n → options.Limit = n := by
  have hl := buildFilter_options sanatizedForm parseDate rForm filter options h
  have hempty : (sanatizedForm rForm).Get "limit" = "" → options.Limit = 50 := by
    intro h0
    rw [hl, limitOption, if_pos h0]
  refine ⟨fun h0 => hempty (values_get_of_index_nil _ _ h0), hempty, fun h0 => ?_,
    fun n hne h0 => ?_⟩
  · rw [hl, limitOption, h0]
    simp
  · rw [hl, limitOption, if_neg hne, h0]

theorem buildFilter_limit_witness :
    buildFilter id (fun d => Except.ok d) [("limit", ["notanumber"])]
        = Except.ok ({}, { Limit := 50, SortOrder := ["-datetime"], UniqueCallID := true }) ∧
      Atoi ((id [("limit", ["notanumber"])] : Values).Get "limit") = none ∧
      ({ Limit := 50, SortOrder := ["-datetime"], UniqueCallID := true } : Options).Limit = 50 :=
  ⟨rfl, by decide,
    (buildFilter_limit id (fun d => Except.ok d) [("limit", ["notanumber"])] {}
      { Limit := 50, SortOrder := ["-datetime"], UniqueCallID := true } rfl).2.2.1 (by decide)⟩

end Flanders
